import Mathlib

/-!
Verification development for the markdown documentation-linting test suite
(`tests/conftest.py`, `tests/test_consistency.py`, `tests/test_checklist_coverage.py`,
`tests/test_markdown_syntax.py`).

Documents are modelled as lists of characters (`Line := List Char` for a single
line, a full document is a `List Char` that is split on `'\n'` exactly as
Python's `str.split('\n')` does).  Python string predicates (`str.strip`,
`str.lower`, the regular expressions used by the extractors) are translated
character by character; the ASCII fragment is modelled (all documents under
test are ASCII).
-/

/-- A single line of a document: a list of characters containing no `'\n'`. -/
abbrev Line := List Char

/-- Python `\s` for the ASCII range: space, tab, newline, carriage return,
vertical tab, form feed. -/
def pyIsSpace (c : Char) : Bool :=
  c == ' ' || c == '\t' || c == '\n' || c == '\r' || c == '\x0b' || c == '\x0c'

/-- Python `str.lower`, ASCII fragment. -/
def pyLower (c : Char) : Char :=
  if 'A' ≤ c ∧ c ≤ 'Z' then Char.ofNat (c.toNat + 32) else c

/-- Python `str.strip()`: remove leading and trailing whitespace. -/
def pystrip (l : List Char) : List Char :=
  ((l.dropWhile pyIsSpace).reverse.dropWhile pyIsSpace).reverse

/-- Python `content.split('\n')`: split a document into lines.  As in Python,
the empty document yields `[[]]` (one empty line). -/
def splitOnNL : List Char → List Line
  | [] => [[]]
  | c :: rest =>
    if c = '\n' then [] :: splitOnNL rest
    else
      match splitOnNL rest with
      | [] => [[c]]
      | l :: ls => (c :: l) :: ls

/-- Python `'\n'.join(lines)`. -/
def joinNL : List Line → List Char
  | [] => []
  | [l] => l
  | l :: l' :: ls => l ++ '\n' :: joinNL (l' :: ls)

/-- Python `\w` for the ASCII range: letters, digits, underscore. -/
def isWordChar (c : Char) : Bool :=
  c.isAlphanum || c == '_'

/-- The group captured by the regex fragment `\s+(.+)` when matched against
`rest` (with backtracking): at least one whitespace character must lead, and
the group takes everything after the maximal whitespace run, except that when
`rest` is all whitespace of length ≥ 2 the group is the final whitespace
character.  Returns `none` when the fragment does not match. -/
def wsGroup (rest : Line) : Option Line :=
  let ws := rest.takeWhile pyIsSpace
  let tl := rest.dropWhile pyIsSpace
  if ws.isEmpty then none
  else if !tl.isEmpty then some tl
  else if 2 ≤ ws.length then some (ws.drop (ws.length - 1))
  else none

/-- The group captured by the regex fragment `\s*(.+)` when matched against
`rest` (with backtracking); `none` when `rest` is empty. -/
def wsStarGroup (rest : Line) : Option Line :=
  let ws := rest.takeWhile pyIsSpace
  let tl := rest.dropWhile pyIsSpace
  if !tl.isEmpty then some tl
  else if 1 ≤ ws.length then some (ws.drop (ws.length - 1))
  else none

/-- `re.match(r'^#{1,6}\s+(.+)', line)`, returning `group(1).strip()` — the
heading pattern of `extract_checklists`. -/
def headingText (l : Line) : Option Line :=
  let hashes := l.takeWhile (· = '#')
  if 1 ≤ hashes.length ∧ hashes.length ≤ 6 then
    (wsGroup (l.drop hashes.length)).map pystrip
  else none

/-- `re.match(r'^-\s*\[[ x]\]\s*(.+)', line, re.IGNORECASE)`, returning
`group(1).strip()` — the checklist-item pattern of `extract_checklists`. -/
def checklistText (l : Line) : Option Line :=
  match l with
  | '-' :: rest =>
    match rest.dropWhile pyIsSpace with
    | '[' :: c :: ']' :: rest3 =>
      if c = ' ' ∨ c = 'x' ∨ c = 'X' then (wsStarGroup rest3).map pystrip
      else none
    | _ => none
  | _ => none

/-- `line.startswith('```')`, which is both the opening-fence test
(`re.match(r'^```(\w*)', line)` succeeds exactly on these lines) and the
closing-fence test of `extract_code_blocks`. -/
def isFence (l : Line) : Bool :=
  match l with
  | '`' :: '`' :: '`' :: _ => true
  | _ => false

/-- The language tag captured by `re.match(r'^```(\w*)', line)`:
the maximal word-character run after the three backticks. -/
def langOf (l : Line) : Line :=
  (l.drop 3).takeWhile isWordChar

/-- A fenced code block record produced by `extract_code_blocks`. -/
structure CodeBlock where
  language : Line
  code : List Char
  line_number : Nat
deriving DecidableEq, Repr

/-- The scanning loop of `extract_code_blocks`: line list, 1-based line
counter, and the open-block state `current_block`
(`none` ↔ `in_code_block == False`). -/
def ecbGo : List Line → Nat → Option (Line × List Line × Nat) → List CodeBlock
  | [], _, _ => []
  | l :: rest, i, none =>
    if isFence l then ecbGo rest (i + 1) (some (langOf l, [], i))
    else ecbGo rest (i + 1) none
  | l :: rest, i, some (lang, acc, start) =>
    if isFence l then
      ⟨lang, joinNL acc, start⟩ :: ecbGo rest (i + 1) none
    else ecbGo rest (i + 1) (some (lang, acc ++ [l], start))

/-- `extract_code_blocks` from `tests/conftest.py`. -/
def extract_code_blocks (content : List Char) : List CodeBlock :=
  ecbGo (splitOnNL content) 1 none

/-- A checklist group record produced by `extract_checklists`
(`sectionName` is the `section` key of the Python dict). -/
structure ChecklistGroup where
  sectionName : Line
  items : List Line
  line_number : Nat
deriving DecidableEq, Repr

/-- Flush helper: the Python pattern
`if current_checklist and current_checklist['items']: checklists.append(...)`. -/
def emitIf : Option ChecklistGroup → List ChecklistGroup
  | none => []
  | some g => if g.items.isEmpty then [] else [g]

/-- The scanning loop of `extract_checklists`: line list, 1-based line counter,
`current_section`, `current_checklist`. -/
def eclGo : List Line → Nat → Line → Option ChecklistGroup → List ChecklistGroup
  | [], _, _, cur => emitIf cur
  | l :: rest, i, sec, cur =>
    match headingText l with
    | some t => emitIf cur ++ eclGo rest (i + 1) t none
    | none =>
      match checklistText l with
      | some item =>
        match cur with
        | none => eclGo rest (i + 1) sec (some ⟨sec, [item], i⟩)
        | some g => eclGo rest (i + 1) sec (some ⟨g.sectionName, g.items ++ [item], g.line_number⟩)
      | none =>
        if cur.isSome ∧ ¬(pystrip l).isEmpty ∧ ¬l.head? = some '-' then
          emitIf cur ++ eclGo rest (i + 1) sec none
        else eclGo rest (i + 1) sec cur

/-- `extract_checklists` from `tests/conftest.py`. -/
def extract_checklists (content : List Char) : List ChecklistGroup :=
  eclGo (splitOnNL content) 1 "Unknown".toList none

/-- The raw `group(1)` of `^##\s+(.+)$` matched against one single line (no
newline in `l`) — the per-line reading of the level-2 heading pattern, used
below only for the specification-side definition `specSections`; the
implementation-side `_get_major_sections` scans the whole document, since with
`re.MULTILINE` the `\s+` of the pattern may cross newlines. -/
def majorSectionText (l : Line) : Option Line :=
  match l with
  | '#' :: '#' :: rest => wsGroup rest
  | _ => none

/-- The normalization of `_get_major_sections`:
`re.sub(r'[^a-z\s]', '', text.lower()).strip()` — lower-case, keep only the
characters in `[a-z\s]`, then strip. -/
def normalizeSection (l : Line) : Line :=
  pystrip ((l.map pyLower).filter fun c => ('a' ≤ c ∧ c ≤ 'z') ∨ pyIsSpace c)

/-- One attempted match of the tail `\s+(.+)$` of
`re.compile(r'^##\s+(.+)$', re.MULTILINE)` against the text following a
line-initial `"##"`.  `\s+` may cross newlines while `.` stops at them, so
after the maximal whitespace run the group is the rest of that line; when the
whitespace runs to end-of-input, backtracking yields the last non-newline
whitespace character as the group, provided at least one whitespace character
is left for `\s+`.  Returns the captured group and the remainder of the
input after the match. -/
def ms2Try (rest : List Char) : Option (Line × List Char) :=
  let w := rest.takeWhile pyIsSpace
  let afterW := rest.dropWhile pyIsSpace
  if w.isEmpty then none
  else if !afterW.isEmpty then
    some (afterW.takeWhile (· ≠ '\n'), afterW.dropWhile (· ≠ '\n'))
  else
    match w.reverse.dropWhile (· = '\n') with
    | [] => none
    | c :: revPre =>
      if revPre.isEmpty then none
      else some ([c], (w.reverse.takeWhile (· = '\n')).reverse)

/-- Skip to just past the next newline — the next position at which the `^`
anchor can match; `none` at end of input. -/
def msSkipLine (cs : List Char) : Option (List Char) :=
  match cs.dropWhile (· ≠ '\n') with
  | [] => none
  | _ :: rest => some rest

/-- The scan of `re.finditer(r'^##\s+(.+)$', content, re.MULTILINE)`: invoked
at a line start, it attempts a match at a `"##"` prefix and otherwise (or on
failure) resumes at the next line start; after a successful match (which ends
just before a newline or at end of input) it resumes past the next newline.
One unit of fuel is spent per step and every step consumes at least one
character, so `cs.length` fuel always suffices. -/
def msScanAux : Nat → List Char → List Line
  | 0, _ => []
  | fuel + 1, cs =>
    match cs with
    | '#' :: '#' :: rest =>
      match ms2Try rest with
      | some (g, rem) =>
        g :: (match msSkipLine rem with
          | none => []
          | some rest2 => msScanAux fuel rest2)
      | none =>
        match msSkipLine cs with
        | none => []
        | some rest2 => msScanAux fuel rest2
    | _ =>
      match msSkipLine cs with
      | none => []
      | some rest2 => msScanAux fuel rest2

/-- The raw `group(1)` captures of `^##\s+(.+)$` over the whole document, in
match order. -/
def majorSectionMatches (content : List Char) : List Line :=
  msScanAux content.length content

/-- `_get_major_sections` from `tests/test_consistency.py`: the set of
normalized level-2 heading texts of a document. -/
def _get_major_sections (content : List Char) : Finset Line :=
  ((majorSectionMatches content).map normalizeSection).toFinset

/-- `test_full_copies_have_same_sections` from `tests/test_consistency.py`:
the assertion `main_sections == cskill_sections`, whose failure message
carries `main_sections - cskill_sections` and `cskill_sections - main_sections`.
Returned as (pass, only-in-first, only-in-second). -/
def sections_check (a b : List Char) : Bool × Finset Line × Finset Line :=
  let sa := _get_major_sections a
  let sb := _get_major_sections b
  (decide (sa = sb), sa \ sb, sb \ sa)

/-- The per-item normalization of `test_no_duplicate_checklist_items`:
`item.lower().strip()`. -/
def normItem (l : Line) : Line :=
  pystrip (l.map pyLower)

/-- Helper for `firstDedup`: keep elements not already seen. -/
def firstDedupGo : List Line → List Line → List Line
  | _, [] => []
  | seen, x :: xs =>
    if x ∈ seen then firstDedupGo seen xs
    else x :: firstDedupGo (x :: seen) xs

/-- First-occurrence deduplication, mirroring the key order of Python's
`collections.Counter` (insertion-ordered dict). -/
def firstDedup (l : List Line) : List Line :=
  firstDedupGo [] l

/-- The duplicate records `{'section', 'item', 'count'}` contributed by one
checklist group in `test_no_duplicate_checklist_items`: one record per
distinct normalized item text occurring more than once. -/
def dupsOfGroup (g : ChecklistGroup) : List (Line × Line × Nat) :=
  let ns := g.items.map normItem
  (firstDedup ns).filterMap fun v =>
    if 1 < ns.count v then some (g.sectionName, v, ns.count v) else none

/-- The `duplicates` list accumulated by `test_no_duplicate_checklist_items`
over all extracted checklist groups of a document. -/
def duplicate_records (content : List Char) : List (Line × Line × Nat) :=
  (extract_checklists content).flatMap dupsOfGroup

/-- `test_no_duplicate_checklist_items` passes iff `duplicates` is empty. -/
def test_no_duplicate_checklist_items (content : List Char) : Bool :=
  (duplicate_records content).isEmpty

/-- One attempted match of `\[([^\]]*)\]\(([^\)]*)\)` starting just after a
`'['`: the text runs to the first `']'`, which must be followed by `'('`; the
URL runs to the first `')'`.  Returns text, URL, and the rest of the input
after the match. -/
def tryLink (rest : List Char) : Option (Line × Line × List Char) :=
  let text := rest.takeWhile (· ≠ ']')
  match rest.dropWhile (· ≠ ']') with
  | ']' :: '(' :: r2 =>
    match r2.dropWhile (· ≠ ')') with
    | ')' :: rem => some (text, r2.takeWhile (· ≠ ')'), rem)
    | _ => none
  | _ => none

theorem length_dropWhile_le (p : Char → Bool) (l : List Char) :
    (l.dropWhile p).length ≤ l.length := by
  induction l with
  | nil => simp [List.dropWhile]
  | cons c cs ih =>
    by_cases h : p c
    · simpa [List.dropWhile, h] using Nat.le_succ_of_le ih
    · simp [List.dropWhile, h]

theorem tryLink_length {rest : List Char} {t u : Line} {rem : List Char}
    (h : tryLink rest = some (t, u, rem)) : rem.length < rest.length := by
  unfold tryLink at h
  split at h
  · rename_i r2 heq1
    split at h
    · rename_i r3 heq2
      simp only [Option.some.injEq, Prod.mk.injEq] at h
      obtain ⟨-, -, hrem⟩ := h
      subst hrem
      have hd1 := length_dropWhile_le (fun c => c ≠ ']') rest
      rw [heq1] at hd1
      have hd2 := length_dropWhile_le (fun c => c ≠ ')') r2
      rw [heq2] at hd2
      simp only [List.length_cons] at hd1 hd2
      omega
    · exact absurd h (by simp)
  · exact absurd h (by simp)

/-- Fuelled scan of `re.finditer(r'\[([^\]]*)\]\(([^\)]*)\)', content)`: try
a match at each `'['`; on success resume after the match, on failure advance
one character.  One unit of fuel is spent per character position, so
`cs.length` fuel always suffices (`findLinksAux_fuel`). -/
def findLinksAux : Nat → List Char → List (Line × Line)
  | 0, _ => []
  | _, [] => []
  | fuel + 1, c :: rest =>
    if c = '[' then
      match tryLink rest with
      | some (t, u, rem) => (t, u) :: findLinksAux fuel rem
      | none => findLinksAux fuel rest
    else findLinksAux fuel rest

/-- All `(text, url)` pairs found by scanning a document for
`\[([^\]]*)\]\(([^\)]*)\)`. -/
def findLinks (cs : List Char) : List (Line × Line) :=
  findLinksAux cs.length cs

/-- `findLinksAux` ignores its fuel argument on the empty input. -/
theorem findLinksAux_nil : ∀ fuel, findLinksAux fuel [] = []
  | 0 => rfl
  | _ + 1 => rfl

/-- Fuel irrelevance: any fuel of at least `cs.length` gives the full scan. -/
theorem findLinksAux_fuel : ∀ (fuel fuel' : Nat) (cs : List Char),
    cs.length ≤ fuel → cs.length ≤ fuel' →
    findLinksAux fuel cs = findLinksAux fuel' cs := by
  intro fuel
  induction fuel using Nat.strong_induction_on with
  | _ fuel ih =>
    intro fuel' cs hf hf'
    cases cs with
    | nil => rw [findLinksAux_nil, findLinksAux_nil]
    | cons c rest =>
      cases fuel with
      | zero => exact absurd hf (by simp)
      | succ f =>
        cases fuel' with
        | zero => exact absurd hf' (by simp)
        | succ f' =>
          simp only [List.length_cons, Nat.add_le_add_iff_right] at hf hf'
          have hrest : findLinksAux f rest = findLinksAux f' rest :=
            ih f (Nat.lt_succ_self f) f' rest hf hf'
          cases h : tryLink rest with
          | none =>
            by_cases hc : c = '[' <;> simp [findLinksAux, hc, h, hrest]
          | some tur =>
            obtain ⟨t, u, rem⟩ := tur
            have hlen := tryLink_length h
            have hrem : findLinksAux f rem = findLinksAux f' rem :=
              ih f (Nat.lt_succ_self f) f' rem (by omega) (by omega)
            by_cases hc : c = '[' <;> simp [findLinksAux, hc, h, hrest, hrem]

/-- The `malformed_links` records of `test_link_format_valid` contributed by a
document: `'empty link text'` when the link text strips to nothing,
`'whitespace in URL'` when the URL differs from its stripped form. -/
def link_issues (content : List Char) : List (String × Line) :=
  (findLinks content).flatMap fun p =>
    (if (pystrip p.1).isEmpty then [("empty link text", p.2)] else []) ++
    (if pystrip p.2 ≠ p.2 then [("whitespace in URL", p.2)] else [])

/-- `test_link_format_valid` passes on a document iff it contributes no
malformed-link record. -/
def test_link_format_valid (content : List Char) : Bool :=
  (link_issues content).isEmpty

/-! ### SHA-256, for the main/distribution-copy identity check

`test_main_and_cskill_identical` compares `hashlib.sha256(text.encode()).hexdigest()`
of the two documents.  The hash is modelled bit-faithfully on byte lists; a
digest is represented as the 256-bit natural number whose big-endian bytes the
Python `hexdigest` renders (hex rendering is injective, so hexdigest equality
is digest equality). -/

/-- `2^32`, the word modulus of SHA-256. -/
def B32 : Nat := 4294967296

/-- 32-bit right rotation (of a value below `B32`). -/
def rotr (n x : Nat) : Nat :=
  ((x >>> n) ||| (x <<< (32 - n))) % B32

/-- The 64 SHA-256 round constants. -/
def shaK : List Nat :=
  [1116352408, 1899447441, 3049323471, 3921009573,
   961987163, 1508970993, 2453635748, 2870763221,
   3624381080, 310598401, 607225278, 1426881987,
   1925078388, 2162078206, 2614888103, 3248222580,
   3835390401, 4022224774, 264347078, 604807628,
   770255983, 1249150122, 1555081692, 1996064986,
   2554220882, 2821834349, 2952996808, 3210313671,
   3336571891, 3584528711, 113926993, 338241895,
   666307205, 773529912, 1294757372, 1396182291,
   1695183700, 1986661051, 2177026350, 2456956037,
   2730485921, 2820302411, 3259730800, 3345764771,
   3516065817, 3600352804, 4094571909, 275423344,
   430227734, 506948616, 659060556, 883997877,
   958139571, 1322822218, 1537002063, 1747873779,
   1955562222, 2024104815, 2227730452, 2361852424,
   2428436474, 2756734187, 3204031479, 3329325298]

/-- The eight 32-bit working/hash values of SHA-256. -/
structure Hash8 where
  h0 : Nat
  h1 : Nat
  h2 : Nat
  h3 : Nat
  h4 : Nat
  h5 : Nat
  h6 : Nat
  h7 : Nat
deriving DecidableEq, Repr

/-- The SHA-256 initial hash value. -/
def initH : Hash8 :=
  ⟨1779033703, 3144134277, 1013904242, 2773480762,
   1359893119, 2600822924, 528734635, 1541459225⟩

/-- UTF-8 encoding of a character list (Python `str.encode()`). -/
def utf8Encode : List Char → List Nat
  | [] => []
  | c :: cs =>
    let n := c.toNat
    (if n < 0x80 then [n]
     else if n < 0x800 then
       [0xC0 ||| (n >>> 6), 0x80 ||| (n &&& 0x3F)]
     else if n < 0x10000 then
       [0xE0 ||| (n >>> 12), 0x80 ||| ((n >>> 6) &&& 0x3F), 0x80 ||| (n &&& 0x3F)]
     else
       [0xF0 ||| (n >>> 18), 0x80 ||| ((n >>> 12) &&& 0x3F),
        0x80 ||| ((n >>> 6) &&& 0x3F), 0x80 ||| (n &&& 0x3F)]) ++ utf8Encode cs

/-- The eight big-endian bytes of a 64-bit value. -/
def lenBytes (n : Nat) : List Nat :=
  [(n >>> 56) &&& 255, (n >>> 48) &&& 255, (n >>> 40) &&& 255, (n >>> 32) &&& 255,
   (n >>> 24) &&& 255, (n >>> 16) &&& 255, (n >>> 8) &&& 255, n &&& 255]

/-- SHA-256 message padding: append `0x80`, zero bytes to 56 mod 64, then the
64-bit big-endian bit length. -/
def padBytes (msg : List Nat) : List Nat :=
  msg ++ [0x80] ++ List.replicate ((119 - msg.length % 64) % 64) 0
    ++ lenBytes (8 * msg.length)

/-- Group bytes into big-endian 32-bit words. -/
def toWords : List Nat → List Nat
  | b0 :: b1 :: b2 :: b3 :: rest =>
    (b0 * 16777216 + b1 * 65536 + b2 * 256 + b3) :: toWords rest
  | _ => []

/-- Group words into 16-word chunks (the padded message is always a whole
number of chunks). -/
def chunk16 : List Nat → List (List Nat)
  | w0 :: w1 :: w2 :: w3 :: w4 :: w5 :: w6 :: w7 ::
    w8 :: w9 :: w10 :: w11 :: w12 :: w13 :: w14 :: w15 :: rest =>
    [w0, w1, w2, w3, w4, w5, w6, w7, w8, w9, w10, w11, w12, w13, w14, w15]
      :: chunk16 rest
  | _ => []

/-- Extend the message schedule by `k` further words; the schedule is kept in
reverse order (most recent word first). -/
def shaExtend : Nat → List Nat → List Nat
  | 0, revW => revW
  | k + 1, revW =>
    let w15 := revW.getD 14 0
    let w2 := revW.getD 1 0
    let s0 := (rotr 7 w15) ^^^ (rotr 18 w15) ^^^ (w15 >>> 3)
    let s1 := (rotr 17 w2) ^^^ (rotr 19 w2) ^^^ (w2 >>> 10)
    shaExtend k (((revW.getD 15 0 + s0 + revW.getD 6 0 + s1) % B32) :: revW)

/-- The 64-word message schedule of a 16-word chunk. -/
def schedule (chunk : List Nat) : List Nat :=
  (shaExtend 48 chunk.reverse).reverse

/-- One SHA-256 compression round. -/
def shaRound (st : Hash8) (kw : Nat × Nat) : Hash8 :=
  let S1 := rotr 6 st.h4 ^^^ rotr 11 st.h4 ^^^ rotr 25 st.h4
  let ch := (st.h4 &&& st.h5) ^^^ ((st.h4 ^^^ 4294967295) &&& st.h6)
  let temp1 := (st.h7 + S1 + ch + kw.1 + kw.2) % B32
  let S0 := rotr 2 st.h0 ^^^ rotr 13 st.h0 ^^^ rotr 22 st.h0
  let maj := (st.h0 &&& st.h1) ^^^ (st.h0 &&& st.h2) ^^^ (st.h1 &&& st.h2)
  let temp2 := (S0 + maj) % B32
  ⟨(temp1 + temp2) % B32, st.h0, st.h1, st.h2,
   (st.h3 + temp1) % B32, st.h4, st.h5, st.h6⟩

/-- Compress one 16-word chunk into the running hash value. -/
def processChunk (H : Hash8) (chunk : List Nat) : Hash8 :=
  let st := (shaK.zip (schedule chunk)).foldl shaRound H
  ⟨(H.h0 + st.h0) % B32, (H.h1 + st.h1) % B32, (H.h2 + st.h2) % B32,
   (H.h3 + st.h3) % B32, (H.h4 + st.h4) % B32, (H.h5 + st.h5) % B32,
   (H.h6 + st.h6) % B32, (H.h7 + st.h7) % B32⟩

/-- The digest as one 256-bit natural number (big-endian word order, exactly
what `hexdigest` renders in hex). -/
def digestOf (H : Hash8) : Nat :=
  ((((((H.h0 * B32 + H.h1) * B32 + H.h2) * B32 + H.h3) * B32 + H.h4) * B32
    + H.h5) * B32 + H.h6) * B32 + H.h7

/-- `hashlib.sha256(bytes).digest()` as a 256-bit natural number. -/
def sha256 (msg : List Nat) : Nat :=
  digestOf ((chunk16 (toWords (padBytes msg))).foldl processChunk initH)

/-- `test_main_and_cskill_identical` from `tests/test_consistency.py`: the two
documents' texts are encoded, hashed with SHA-256, and the assertion compares
the hexdigests. -/
def test_main_and_cskill_identical (a b : List Char) : Bool :=
  sha256 (utf8Encode a) == sha256 (utf8Encode b)

/-- `test_main_and_cskill_line_counts_match` from `tests/test_consistency.py`:
`len(a.split('\n')) == len(b.split('\n'))`. -/
def test_main_and_cskill_line_counts_match (a b : List Char) : Bool :=
  (splitOnNL a).length == (splitOnNL b).length

/-! ### Line-splitting lemmas -/

theorem splitOnNL_ne_nil (cs : List Char) : splitOnNL cs ≠ [] := by
  induction cs with
  | nil => simp [splitOnNL]
  | cons c rest ih =>
    simp only [splitOnNL]
    by_cases h : c = '\n'
    · simp [h]
    · simp only [if_neg h]
      cases hs : splitOnNL rest with
      | nil => simp
      | cons l ls => simp

theorem splitOnNL_no_nl (l : Line) (h : '\n' ∉ l) : splitOnNL l = [l] := by
  induction l with
  | nil => rfl
  | cons c rest ih =>
    simp only [List.mem_cons, not_or] at h
    have hc : ¬c = '\n' := fun hc => h.1 hc.symm
    simp only [splitOnNL, if_neg hc, ih h.2]

theorem splitOnNL_append (l : Line) (rest : List Char) (h : '\n' ∉ l) :
    splitOnNL (l ++ '\n' :: rest) = l :: splitOnNL rest := by
  induction l with
  | nil => simp [splitOnNL]
  | cons c cs ih =>
    simp only [List.mem_cons, not_or] at h
    have hc : ¬c = '\n' := fun hc => h.1 hc.symm
    simp only [List.cons_append, splitOnNL, if_neg hc, List.append_eq, ih h.2]

theorem split_join (ls : List Line) (hne : ls ≠ []) (h : ∀ l ∈ ls, '\n' ∉ l) :
    splitOnNL (joinNL ls) = ls := by
  induction ls with
  | nil => exact absurd rfl hne
  | cons l ls ih =>
    cases ls with
    | nil => exact splitOnNL_no_nl l (h l (by simp))
    | cons l' ls' =>
      rw [joinNL, splitOnNL_append _ _ (h l (by simp)),
        ih (by simp) fun x hx => h x (List.mem_cons_of_mem _ hx)]

theorem splitOnNL_length (cs : List Char) :
    (splitOnNL cs).length = cs.count '\n' + 1 := by
  induction cs with
  | nil => rfl
  | cons c rest ih =>
    simp only [splitOnNL, List.count_cons]
    by_cases h : c = '\n'
    · simp [h, ih]
    · simp only [if_neg h]
      have hne := splitOnNL_ne_nil rest
      cases hs : splitOnNL rest with
      | nil => exact absurd hs hne
      | cons l ls =>
        rw [hs] at ih
        simp only [List.length_cons] at ih ⊢
        have : (c == '\n') = false := by simp [h]
        simp [this, ih]

/-! ### Code-block scanner lemmas -/

/-- While no fence line arrives, an open block stays open and emits nothing. -/
theorem ecbGo_no_fence (lines : List Line) (h : ∀ l ∈ lines, isFence l = false) :
    ∀ i st, ecbGo lines i (some st) = [] := by
  induction lines with
  | nil => intro i st; rfl
  | cons l rest ih =>
    intro i st
    obtain ⟨lang, acc, start⟩ := st
    simp only [ecbGo, h l (by simp), Bool.false_eq_true, if_false]
    exact ih (fun x hx => h x (List.mem_cons_of_mem _ hx)) _ _

/-- Inside a block, non-fence lines are appended verbatim and the first line
starting with three backticks closes and emits the block. -/
theorem ecbGo_inside (body : List Line) (hb : ∀ l ∈ body, isFence l = false)
    (cl : Line) (hcl : isFence cl = true) (rest : List Line) :
    ∀ i lang acc s, ecbGo (body ++ cl :: rest) i (some (lang, acc, s)) =
      ⟨lang, joinNL (acc ++ body), s⟩ :: ecbGo rest (i + body.length + 1) none := by
  induction body with
  | nil =>
    intro i lang acc s
    simp [ecbGo, hcl]
  | cons l body ih =>
    intro i lang acc s
    have hl : isFence l = false := hb l (by simp)
    simp only [List.cons_append, ecbGo, hl, Bool.false_eq_true, if_false,
      List.append_eq]
    rw [ih (fun x hx => hb x (List.mem_cons_of_mem _ hx)) (i + 1) lang (acc ++ [l]) s]
    rw [show (acc ++ [l]) ++ body = acc ++ l :: body by simp,
      show i + 1 + body.length + 1 = i + (l :: body).length + 1 by
        simp only [List.length_cons]; omega]

/-- A well-formed fenced block: opening fence with language tag, body lines,
bare closing fence. -/
structure FencePair where
  lang : Line
  body : List Line
deriving DecidableEq, Repr

/-- Well-formedness of a fence pair for the round-trip statements: the
language tag is made of word characters and the body lines neither collide
with fences nor contain newlines. -/
def FencePair.WF (p : FencePair) : Prop :=
  (∀ c ∈ p.lang, isWordChar c = true) ∧
    ∀ l ∈ p.body, isFence l = false ∧ '\n' ∉ l

instance (p : FencePair) : Decidable p.WF := by
  unfold FencePair.WF; infer_instance

/-- The lines of one rendered fenced block. -/
def renderPair (p : FencePair) : List Line :=
  ('`' :: '`' :: '`' :: p.lang) :: p.body ++ [['`', '`', '`']]

/-- The lines of a document made of consecutive rendered fenced blocks. -/
def renderDoc (ps : List FencePair) : List Line :=
  (ps.map renderPair).flatten

/-- Number of lines of a rendered document. -/
def docLen : List FencePair → Nat
  | [] => 0
  | p :: ps => p.body.length + 2 + docLen ps

/-- The code blocks the extractor is expected to produce for a rendered
document whose first line is line `i`. -/
def expectedBlocks : Nat → List FencePair → List CodeBlock
  | _, [] => []
  | i, p :: ps => ⟨p.lang, joinNL p.body, i⟩ :: expectedBlocks (i + p.body.length + 2) ps

theorem langOf_render (lang : Line) (h : ∀ c ∈ lang, isWordChar c = true) :
    langOf ('`' :: '`' :: '`' :: lang) = lang := by
  simp only [langOf, List.drop_succ_cons, List.drop_zero]
  exact List.takeWhile_eq_self_iff.mpr h

theorem ecbGo_render (ps : List FencePair) (hps : ∀ p ∈ ps, p.WF)
    (suffix : List Line) :
    ∀ i, ecbGo (renderDoc ps ++ suffix) i none =
      expectedBlocks i ps ++ ecbGo suffix (i + docLen ps) none := by
  induction ps with
  | nil => intro i; simp [renderDoc, expectedBlocks, docLen]
  | cons p ps ih =>
    intro i
    obtain ⟨hlang, hbody⟩ := hps p (by simp)
    have hrest : ∀ q ∈ ps, q.WF := fun q hq => hps q (List.mem_cons_of_mem _ hq)
    have hdoc : renderDoc (p :: ps) ++ suffix =
        ('`' :: '`' :: '`' :: p.lang) ::
          (p.body ++ ['`', '`', '`'] :: (renderDoc ps ++ suffix)) := by
      simp [renderDoc, renderPair, List.append_assoc]
    rw [hdoc]
    simp only [ecbGo, isFence, if_pos rfl]
    rw [ecbGo_inside p.body (fun l hl => (hbody l hl).1) ['`', '`', '`'] rfl
        (renderDoc ps ++ suffix) (i + 1) (langOf ('`' :: '`' :: '`' :: p.lang)) [] i,
      langOf_render _ hlang, ih hrest]
    simp only [expectedBlocks, docLen, List.cons_append, List.nil_append]
    rw [show i + 1 + p.body.length + 1 = i + p.body.length + 2 by omega,
      show i + p.body.length + 2 + docLen ps = i + (p.body.length + 2 + docLen ps) by omega]
    simp

/-- Opening a block: a fence line seen while outside switches the scanner to
the inside state, recording the language tag and the line number. -/
theorem ecbGo_open (l : Line) (h : isFence l = true) (rest : List Line) (i : Nat) :
    ecbGo (l :: rest) i none = ecbGo rest (i + 1) (some (langOf l, [], i)) := by
  simp [ecbGo, h]

theorem renderDoc_no_nl (ps : List FencePair) (h : ∀ p ∈ ps, p.WF) :
    ∀ l ∈ renderDoc ps, '\n' ∉ l := by
  intro l hl
  rw [renderDoc, List.mem_flatten] at hl
  obtain ⟨s, hs, hls⟩ := hl
  rw [List.mem_map] at hs
  obtain ⟨p, hp, rfl⟩ := hs
  obtain ⟨hlang, hbody⟩ := h p hp
  rw [renderPair, List.cons_append, List.mem_cons] at hls
  rcases hls with rfl | hls
  · intro hmem
    simp only [List.mem_cons] at hmem
    rcases hmem with h1 | h1 | h1 | h1 <;> first
      | exact absurd h1 (by decide)
      | exact absurd (hlang _ h1) (by decide)
  · rw [List.mem_append, List.mem_singleton] at hls
    rcases hls with hls | rfl
    · exact (hbody l hls).2
    · decide

theorem expectedBlocks_length (ps : List FencePair) :
    ∀ i, (expectedBlocks i ps).length = ps.length := by
  induction ps with
  | nil => intro i; rfl
  | cons p ps ih => intro i; simp [expectedBlocks, ih]

/-- C2: for a document built from N well-formed open/close fence pairs whose
body lines do not collide with fences, `extract_code_blocks` returns exactly
N blocks, in source order, with languages, bodies and starting line numbers
exactly as rendered (`expectedBlocks` lists them in source order with bodies
equal to the joined original body lines). -/
theorem fence_round_trip (ps : List FencePair) (h : ∀ p ∈ ps, p.WF) :
    extract_code_blocks (joinNL (renderDoc ps)) = expectedBlocks 1 ps ∧
      (extract_code_blocks (joinNL (renderDoc ps))).length = ps.length := by
  cases ps with
  | nil => exact ⟨rfl, rfl⟩
  | cons p ps' =>
    have hne : renderDoc (p :: ps') ≠ [] := by
      simp [renderDoc, renderPair]
    have heq : extract_code_blocks (joinNL (renderDoc (p :: ps'))) =
        expectedBlocks 1 (p :: ps') := by
      rw [extract_code_blocks, split_join _ hne (renderDoc_no_nl _ h),
        show renderDoc (p :: ps') = renderDoc (p :: ps') ++ [] by simp,
        ecbGo_render _ h [] 1]
      simp [ecbGo]
    exact ⟨heq, by rw [heq, expectedBlocks_length]⟩

/-- C2 witness: a concrete two-block document round-trips. -/
theorem fence_round_trip_witness :
    (∀ p ∈ [FencePair.mk "py".toList ["a".toList], FencePair.mk [] []], p.WF) ∧
      extract_code_blocks
          (joinNL (renderDoc [FencePair.mk "py".toList ["a".toList], FencePair.mk [] []])) =
        expectedBlocks 1 [FencePair.mk "py".toList ["a".toList], FencePair.mk [] []] :=
  ⟨by decide, (fence_round_trip _ (by decide)).1⟩

/-- C3 counterexample: in the document `"```\n```py\nx\n```"` the line
`"```py"` (backticks followed by additional text) is encountered inside an
open block; the claim says such a line is appended to the block body, but the
extractor instead closes the block there: the only emitted block has an empty
body, and no emitted block body contains the line `"```py"`. -/
theorem close_fence_counterexample :
    extract_code_blocks "```\n```py\nx\n```".toList =
        [⟨[], [], 1⟩] ∧
      ∀ b ∈ extract_code_blocks "```\n```py\nx\n```".toList,
        "```py".toList ∉ splitOnNL b.code := by
  decide

/-- C3 amended: while inside a block, every line is appended verbatim to the
block body except any line that starts with three backticks — regardless of
what follows the backticks — which closes the block and emits it. -/
theorem inside_block_closes_on_any_backtick_line (lang : Line)
    (hlang : ∀ c ∈ lang, isWordChar c = true)
    (body : List Line) (hbody : ∀ l ∈ body, isFence l = false ∧ '\n' ∉ l)
    (ext : Line) (hext : '\n' ∉ ext) :
    extract_code_blocks
        (joinNL (('`' :: '`' :: '`' :: lang) :: body ++ [('`' :: '`' :: '`' :: ext)])) =
      [⟨lang, joinNL body, 1⟩] := by
  have hnl : ∀ l ∈ ('`' :: '`' :: '`' :: lang) :: body ++ [('`' :: '`' :: '`' :: ext)],
      '\n' ∉ l := by
    intro l hl
    rw [List.cons_append, List.mem_cons] at hl
    rcases hl with rfl | hl
    · intro hmem
      simp only [List.mem_cons] at hmem
      rcases hmem with h1 | h1 | h1 | h1 <;> first
        | exact absurd h1 (by decide)
        | exact absurd (hlang _ h1) (by decide)
    · rw [List.mem_append, List.mem_singleton] at hl
      rcases hl with hl | rfl
      · exact (hbody l hl).2
      · intro hmem
        simp only [List.mem_cons] at hmem
        rcases hmem with h1 | h1 | h1 | h1 <;> first
          | exact absurd h1 (by decide)
          | exact hext h1
  rw [extract_code_blocks, split_join _ (by simp) hnl, List.cons_append,
    ecbGo_open ('`' :: '`' :: '`' :: lang) rfl,
    ecbGo_inside body (fun l hl => (hbody l hl).1) ('`' :: '`' :: '`' :: ext) rfl
      [] 2 (langOf ('`' :: '`' :: '`' :: lang)) [] 1,
    langOf_render _ hlang]
  rfl

/-- C3 amended, witness: concrete instance where the closing line is
`"```rust tail"` (backticks plus extra text) and the body is preserved. -/
theorem inside_block_closes_witness :
    ((∀ c ∈ "py".toList, isWordChar c = true) ∧
      (∀ l ∈ ["x y".toList], isFence l = false ∧ '\n' ∉ l) ∧
      '\n' ∉ "rust tail".toList) ∧
    extract_code_blocks
        (joinNL (('`' :: '`' :: '`' :: "py".toList) :: ["x y".toList]
          ++ [('`' :: '`' :: '`' :: "rust tail".toList)])) =
      [⟨"py".toList, joinNL ["x y".toList], 1⟩] :=
  ⟨⟨by decide, by decide, by decide⟩,
    inside_block_closes_on_any_backtick_line _ (by decide) _ (by decide) _ (by decide)⟩

/-- C4: a final opening fence never closed before end-of-input is silently
dropped — the extractor (a total function, so no error is possible) emits
exactly the blocks closed before it and nothing for the unterminated one. -/
theorem unterminated_block_dropped (ps : List FencePair) (hps : ∀ p ∈ ps, p.WF)
    (lang : Line) (hlang : ∀ c ∈ lang, isWordChar c = true)
    (tail : List Line) (htail : ∀ l ∈ tail, isFence l = false ∧ '\n' ∉ l) :
    extract_code_blocks
        (joinNL (renderDoc ps ++ ('`' :: '`' :: '`' :: lang) :: tail)) =
      expectedBlocks 1 ps := by
  have hnl : ∀ l ∈ renderDoc ps ++ ('`' :: '`' :: '`' :: lang) :: tail, '\n' ∉ l := by
    intro l hl
    rw [List.mem_append, List.mem_cons] at hl
    rcases hl with hl | rfl | hl
    · exact renderDoc_no_nl ps hps l hl
    · intro hmem
      simp only [List.mem_cons] at hmem
      rcases hmem with h1 | h1 | h1 | h1 <;> first
        | exact absurd h1 (by decide)
        | exact absurd (hlang _ h1) (by decide)
    · exact (htail l hl).2
  have hne : renderDoc ps ++ ('`' :: '`' :: '`' :: lang) :: tail ≠ [] := by
    simp
  rw [extract_code_blocks, split_join _ hne hnl, ecbGo_render _ hps _ 1,
    ecbGo_open ('`' :: '`' :: '`' :: lang) rfl,
    ecbGo_no_fence tail (fun l hl => (htail l hl).1)]
  simp

/-- C4 witness: one closed block followed by an unterminated fence and
trailing lines yields exactly the closed block. -/
theorem unterminated_block_dropped_witness :
    ((∀ p ∈ [FencePair.mk "py".toList ["a".toList]], p.WF) ∧
      (∀ c ∈ "md".toList, isWordChar c = true) ∧
      (∀ l ∈ ["leftover".toList, [] ], isFence l = false ∧ '\n' ∉ l)) ∧
    extract_code_blocks
        (joinNL (renderDoc [FencePair.mk "py".toList ["a".toList]]
          ++ ('`' :: '`' :: '`' :: "md".toList) :: ["leftover".toList, [] ])) =
      expectedBlocks 1 [FencePair.mk "py".toList ["a".toList]] :=
  ⟨⟨by decide, by decide, by decide⟩,
    unterminated_block_dropped _ (by decide) _ (by decide) _ (by decide)⟩

/-! ### Checklist scanner lemmas -/

/-- The item text recorded for a checklist-item line. -/
def itemTxt (l : Line) : Line :=
  (checklistText l).getD []

theorem itemTxt_eq {l t : Line} (h : checklistText l = some t) : itemTxt l = t := by
  simp [itemTxt, h]

theorem checklistText_head {l t : Line} (h : checklistText l = some t) :
    ∃ rest, l = '-' :: rest := by
  cases l with
  | nil => exact absurd h (by simp [checklistText])
  | cons c cs =>
    by_cases hc : c = '-'
    · exact ⟨cs, by rw [hc]⟩
    · exfalso
      have hnone : checklistText (c :: cs) = none := by
        unfold checklistText
        split
        · rename_i rest heq
          injection heq with h1 _
          exact absurd h1 hc
        · rfl
      rw [hnone] at h
      exact Option.noConfusion h

theorem headingText_of_item {l t : Line} (h : checklistText l = some t) :
    headingText l = none := by
  obtain ⟨rest, rfl⟩ := checklistText_head h
  simp [headingText, List.takeWhile]

theorem emitIf_some {g : ChecklistGroup} (hg : g.items ≠ []) :
    emitIf (some g) = [g] := by
  cases e : g.items.isEmpty
  · simp [emitIf, e]
  · exact absurd (List.isEmpty_iff.mp e) hg

theorem eclGo_items (itemsL : List Line)
    (hit : ∀ l ∈ itemsL, (checklistText l).isSome) (rest : List Line) :
    ∀ i sec g, eclGo (itemsL ++ rest) i sec (some g) =
      eclGo rest (i + itemsL.length) sec
        (some ⟨g.sectionName, g.items ++ itemsL.map itemTxt, g.line_number⟩) := by
  induction itemsL with
  | nil => intro i sec g; simp
  | cons l ls ih =>
    intro i sec g
    obtain ⟨t, ht⟩ := Option.isSome_iff_exists.mp (hit l (by simp))
    simp only [List.cons_append, eclGo, headingText_of_item ht, ht, List.append_eq]
    rw [ih (fun x hx => hit x (List.mem_cons_of_mem _ hx)) (i + 1) sec
      ⟨g.sectionName, g.items ++ [t], g.line_number⟩]
    simp only [List.map_cons, itemTxt_eq ht, List.length_cons, List.append_assoc,
      List.singleton_append]
    rw [show i + 1 + ls.length = i + (ls.length + 1) by omega]

theorem eclGo_open_items (l0 : Line) (ls : List Line)
    (hit : ∀ l ∈ l0 :: ls, (checklistText l).isSome) (rest : List Line) :
    ∀ i sec, eclGo (l0 :: (ls ++ rest)) i sec none =
      eclGo rest (i + (l0 :: ls).length) sec
        (some ⟨sec, (l0 :: ls).map itemTxt, i⟩) := by
  intro i sec
  obtain ⟨t, ht⟩ := Option.isSome_iff_exists.mp (hit l0 (by simp))
  simp only [eclGo, headingText_of_item ht, ht, List.append_eq]
  rw [eclGo_items ls (fun x hx => hit x (List.mem_cons_of_mem _ hx)) rest (i + 1) sec
    ⟨sec, [t], i⟩]
  simp only [List.map_cons, itemTxt_eq ht, List.length_cons, List.singleton_append]
  rw [show i + 1 + ls.length = i + (ls.length + 1) by omega]

theorem eclGo_no_items (lines : List Line)
    (h : ∀ l ∈ lines, checklistText l = none) :
    ∀ i sec, eclGo lines i sec none = [] := by
  induction lines with
  | nil => intro i sec; rfl
  | cons l rest ih =>
    intro i sec
    have hrest := fun x hx => h x (List.mem_cons_of_mem _ hx)
    cases hh : headingText l with
    | some t =>
      simp only [eclGo, hh, emitIf, List.nil_append]
      exact ih hrest _ _
    | none =>
      simp only [eclGo, hh, h l (by simp)]
      rw [if_neg (by simp)]
      exact ih hrest _ _

theorem eclGo_flush (lines : List Line)
    (h : ∀ l ∈ lines, checklistText l = none)
    (g : ChecklistGroup) (hg : g.items ≠ []) :
    ∀ i sec, eclGo lines i sec (some g) = [g] := by
  induction lines with
  | nil => intro i sec; exact emitIf_some hg
  | cons l rest ih =>
    intro i sec
    have hrest := fun x hx => h x (List.mem_cons_of_mem _ hx)
    cases hh : headingText l with
    | some t =>
      simp only [eclGo, hh]
      rw [emitIf_some hg, eclGo_no_items rest hrest]
      simp
    | none =>
      simp only [eclGo, hh, h l (by simp)]
      by_cases hc : (some g : Option ChecklistGroup).isSome ∧
          ¬(pystrip l).isEmpty ∧ ¬l.head? = some '-'
      · rw [if_pos hc, emitIf_some hg, eclGo_no_items rest hrest]
        simp
      · rw [if_neg hc]
        exact ih hrest _ _

theorem mem_emitIf {g : ChecklistGroup} {cur : Option ChecklistGroup}
    (h : g ∈ emitIf cur) : g.items ≠ [] := by
  cases cur with
  | none => exact absurd h (by simp [emitIf])
  | some g' =>
    cases e : g'.items.isEmpty
    · simp only [emitIf, e, Bool.false_eq_true, if_false, List.mem_singleton] at h
      subst h
      intro hnil
      rw [hnil] at e
      exact absurd e (by simp)
    · simp [emitIf, e] at h

theorem eclGo_mem_items_ne_nil : ∀ (lines : List Line) i sec cur g,
    g ∈ eclGo lines i sec cur → g.items ≠ [] := by
  intro lines
  induction lines with
  | nil =>
    intro i sec cur g hg
    exact mem_emitIf hg
  | cons l rest ih =>
    intro i sec cur g hg
    cases hh : headingText l with
    | some t =>
      simp only [eclGo, hh] at hg
      rcases List.mem_append.mp hg with hg | hg
      · exact mem_emitIf hg
      · exact ih _ _ _ _ hg
    | none =>
      cases hc : checklistText l with
      | some item =>
        cases cur with
        | none =>
          simp only [eclGo, hh, hc] at hg
          exact ih _ _ _ _ hg
        | some g' =>
          simp only [eclGo, hh, hc] at hg
          exact ih _ _ _ _ hg
      | none =>
        simp only [eclGo, hh, hc] at hg
        by_cases hcond : cur.isSome ∧ ¬(pystrip l).isEmpty ∧ ¬l.head? = some '-'
        · rw [if_pos hcond] at hg
          rcases List.mem_append.mp hg with hg | hg
          · exact mem_emitIf hg
          · exact ih _ _ _ _ hg
        · rw [if_neg hcond] at hg
          exact ih _ _ _ _ hg

theorem checklistText_cons_ne {c : Char} (hc : c ≠ '-') (cs : List Char) :
    checklistText (c :: cs) = none := by
  unfold checklistText
  split
  · rename_i rest heq
    injection heq with h1 _
    exact absurd h1 hc
  · rfl

theorem headingText_cons_ne {c : Char} (hc : c ≠ '#') (cs : List Char) :
    headingText (c :: cs) = none := by
  simp [headingText, List.takeWhile_cons, hc]

theorem dropWhile_append_ne_nil {p : Char → Bool} {a : Char} (ha : p a = false)
    (xs : List Char) : (xs ++ [a]).dropWhile p ≠ [] := by
  induction xs with
  | nil => simp [List.dropWhile, ha]
  | cons x xs ih =>
    cases hx : p x
    · simp [List.dropWhile_cons, hx]
    · simpa [List.dropWhile_cons, hx] using ih

theorem pystrip_ws_item {c : Char} {w t : Line} (hc : pyIsSpace c = true)
    (hw : checklistText w = some t) : ¬(pystrip (c :: w)).isEmpty = true := by
  obtain ⟨wrest, rfl⟩ := checklistText_head hw
  rw [pystrip, List.dropWhile_cons_of_pos hc,
    List.dropWhile_cons_of_neg (by simp [pyIsSpace]), List.reverse_cons]
  rw [List.isEmpty_iff, List.reverse_eq_nil_iff]
  exact dropWhile_append_ne_nil (by rfl) _

/-- One scanner step: a heading line flushes any open group and becomes the
current section. -/
theorem eclGo_heading {l t : Line} (ht : headingText l = some t)
    (rest : List Line) (i : Nat) (sec : Line) (cur : Option ChecklistGroup) :
    eclGo (l :: rest) i sec cur = emitIf cur ++ eclGo rest (i + 1) t none := by
  simp only [eclGo, ht]

/-- One scanner step: a blank line changes nothing but the line counter. -/
theorem eclGo_blank (rest : List Line) (i : Nat) (sec : Line)
    (cur : Option ChecklistGroup) :
    eclGo ([] :: rest) i sec cur = eclGo rest (i + 1) sec cur := by
  have h1 : headingText ([] : Line) = none := by decide
  have h2 : checklistText ([] : Line) = none := rfl
  cases cur with
  | none =>
    simp only [eclGo, h1, h2]
    rw [if_neg (by simp)]
  | some g =>
    simp only [eclGo, h1, h2]
    rw [if_neg (by simp [pystrip, List.dropWhile])]

/-- One scanner step: a non-heading, non-item, non-blank line that does not
start with a dash flushes the open group. -/
theorem eclGo_flush_step {l : Line} (hh : headingText l = none)
    (hc : checklistText l = none) (hstrip : ¬(pystrip l).isEmpty = true)
    (hdash : ¬l.head? = some '-') (rest : List Line) (i : Nat) (sec : Line)
    (g : ChecklistGroup) :
    eclGo (l :: rest) i sec (some g) =
      emitIf (some g) ++ eclGo rest (i + 1) sec none := by
  simp only [eclGo, hh, hc]
  rw [if_pos ⟨rfl, hstrip, hdash⟩]

/-- C5: (a) every group emitted by `extract_checklists` has at least one item,
and (b) a document consisting of a heading, K ≥ 1 checklist-item lines, a
blank line, then prose containing no further checklist-item lines yields
exactly one group, holding the K item texts in document order, attributed to
that heading and starting at the first item's line. -/
theorem checklist_grouping :
    (∀ (content : List Char) (g : ChecklistGroup),
        g ∈ extract_checklists content → g.items ≠ []) ∧
      ∀ (h t : Line), headingText h = some t → '\n' ∉ h →
        ∀ itemsL : List Line, itemsL ≠ [] →
          (∀ l ∈ itemsL, (checklistText l).isSome ∧ '\n' ∉ l) →
          ∀ prose : List Line, (∀ l ∈ prose, checklistText l = none ∧ '\n' ∉ l) →
          extract_checklists (joinNL (h :: itemsL ++ [] :: prose)) =
            [⟨t, itemsL.map itemTxt, 2⟩] := by
  constructor
  · intro content g hg
    exact eclGo_mem_items_ne_nil _ _ _ _ _ hg
  · intro h t hh hhn itemsL hne hit prose hp
    obtain ⟨l0, ls, rfl⟩ := List.exists_cons_of_ne_nil hne
    have hnl : ∀ x ∈ h :: (l0 :: ls) ++ [] :: prose, '\n' ∉ x := by
      intro x hx
      simp only [List.cons_append, List.mem_cons, List.mem_append] at hx
      rcases hx with rfl | rfl | hx | rfl | hx
      · exact hhn
      · exact (hit _ (List.mem_cons_self _ _)).2
      · exact (hit x (List.mem_cons_of_mem _ hx)).2
      · simp
      · exact (hp x hx).2
    rw [extract_checklists, split_join _ (by simp) hnl, List.cons_append,
      eclGo_heading hh _ 1 _ none, List.cons_append,
      eclGo_open_items l0 ls (fun l hl => (hit l hl).1) ([] :: prose) (1 + 1) t,
      eclGo_blank,
      eclGo_flush prose (fun l hl => (hp l hl).1) _ (by simp) _ _]
    rfl

/-- C5 witness: heading, two items, blank line, prose — one group with both
items, attributed to the heading. -/
theorem checklist_grouping_witness :
    (headingText "# H".toList = some "H".toList ∧
      (∀ l ∈ ["- [ ] a".toList, "- [x] b".toList],
        (checklistText l).isSome ∧ '\n' ∉ l) ∧
      (∀ l ∈ ["prose text".toList], checklistText l = none ∧ '\n' ∉ l)) ∧
    extract_checklists (joinNL ("# H".toList :: ["- [ ] a".toList, "- [x] b".toList]
        ++ [] :: ["prose text".toList])) =
      [⟨"H".toList, ["- [ ] a".toList, "- [x] b".toList].map itemTxt, 2⟩] :=
  ⟨⟨by decide, by decide, by decide⟩,
    checklist_grouping.2 "# H".toList "H".toList (by decide) (by decide)
      ["- [ ] a".toList, "- [x] b".toList] (by decide) (by decide)
      ["prose text".toList] (by decide)⟩

/-- C9: the checklist extractor is not code-fence-aware.  In the document
`"```\n- [ ] a\n# Fake\n- [ ] b\n```"` the code-block extractor reports one
fenced block spanning lines 2–4, yet the checklist extractor treats the
heading-pattern line `"# Fake"` inside that block as a real heading (it
flushes the open group and owns the following item) and both checkbox-pattern
lines inside the block as real checklist items. -/
theorem extractors_not_fence_aware :
    extract_code_blocks "```\n- [ ] a\n# Fake\n- [ ] b\n```".toList =
        [⟨[], "- [ ] a\n# Fake\n- [ ] b".toList, 1⟩] ∧
      extract_checklists "```\n- [ ] a\n# Fake\n- [ ] b\n```".toList =
        [⟨"Unknown".toList, ["a".toList], 2⟩, ⟨"Fake".toList, ["b".toList], 4⟩] := by
  decide

/-- C10: (a) a line starting with a whitespace character never matches the
checklist-item pattern (which demands `'-'` at column 0); (b) consequently an
indented checklist-item line between two runs of items closes the open group,
splitting the checklist into two separate groups instead of nesting. -/
theorem indented_items_split_groups :
    (∀ (c : Char) (cs : List Char), pyIsSpace c = true →
        checklistText (c :: cs) = none) ∧
      ∀ (h t : Line), headingText h = some t → '\n' ∉ h →
        ∀ items1 : List Line, items1 ≠ [] →
          (∀ l ∈ items1, (checklistText l).isSome ∧ '\n' ∉ l) →
          ∀ (c : Char) (w : Line), pyIsSpace c = true →
            (checklistText w).isSome → '\n' ∉ (c :: w) →
          ∀ items2 : List Line, items2 ≠ [] →
            (∀ l ∈ items2, (checklistText l).isSome ∧ '\n' ∉ l) →
          extract_checklists (joinNL (h :: items1 ++ (c :: w) :: items2)) =
            [⟨t, items1.map itemTxt, 2⟩,
              ⟨t, items2.map itemTxt, items1.length + 3⟩] := by
  have hpart1 : ∀ (c : Char) (cs : List Char), pyIsSpace c = true →
      checklistText (c :: cs) = none := by
    intro c cs hc
    refine checklistText_cons_ne (fun hdash => ?_) cs
    rw [hdash] at hc
    exact absurd hc (by decide)
  refine ⟨hpart1, ?_⟩
  intro h t hh hhn items1 hne1 hit1 c w hc hw hnw items2 hne2 hit2
  obtain ⟨tw, htw⟩ := Option.isSome_iff_exists.mp hw
  obtain ⟨a0, as, rfl⟩ := List.exists_cons_of_ne_nil hne1
  obtain ⟨b0, bs, rfl⟩ := List.exists_cons_of_ne_nil hne2
  have hnl : ∀ x ∈ h :: (a0 :: as) ++ (c :: w) :: (b0 :: bs), '\n' ∉ x := by
    intro x hx
    simp only [List.cons_append, List.mem_cons, List.mem_append] at hx
    rcases hx with rfl | rfl | hx | rfl | rfl | hx
    · exact hhn
    · exact (hit1 _ (List.mem_cons_self _ _)).2
    · exact (hit1 x (List.mem_cons_of_mem _ hx)).2
    · exact hnw
    · exact (hit2 _ (List.mem_cons_self _ _)).2
    · exact (hit2 x (List.mem_cons_of_mem _ hx)).2
  have hcne : c ≠ '-' := by
    intro hdash
    rw [hdash] at hc
    exact absurd hc (by decide)
  have hchash : c ≠ '#' := by
    intro hdash
    rw [hdash] at hc
    exact absurd hc (by decide)
  rw [extract_checklists, split_join _ (by simp) hnl, List.cons_append,
    eclGo_heading hh _ 1 _ none, List.cons_append,
    eclGo_open_items a0 as (fun l hl => (hit1 l hl).1) ((c :: w) :: (b0 :: bs)) (1 + 1) t,
    eclGo_flush_step (headingText_cons_ne hchash w) (hpart1 c w hc)
      (pystrip_ws_item hc htw) (by simp [hcne]) _ _ _ _,
    emitIf_some (by simp)]
  have hopen2 := eclGo_open_items b0 bs (fun l hl => (hit2 l hl).1) []
    (1 + 1 + (a0 :: as).length + 1) t
  rw [List.append_nil] at hopen2
  rw [hopen2]
  have hemit2 : eclGo [] (1 + 1 + (a0 :: as).length + 1 + (b0 :: bs).length) t
      (some ⟨t, List.map itemTxt (b0 :: bs), 1 + 1 + (a0 :: as).length + 1⟩) =
      [⟨t, List.map itemTxt (b0 :: bs), 1 + 1 + (a0 :: as).length + 1⟩] :=
    emitIf_some (by simp)
  rw [hemit2]
  simp only [emitIf, List.nil_append, List.singleton_append, List.cons.injEq,
    ChecklistGroup.mk.injEq, List.length_cons, and_true, true_and]
  omega

/-- C10 witness: an indented item line between two items splits the checklist
into two groups. -/
theorem indented_items_split_groups_witness :
    (headingText "# H".toList = some "H".toList ∧ pyIsSpace ' ' = true ∧
      (checklistText "- [ ] s".toList).isSome) ∧
    extract_checklists (joinNL ("# H".toList :: ["- [ ] a".toList]
        ++ (' ' :: "- [ ] s".toList) :: ["- [ ] b".toList])) =
      [⟨"H".toList, ["- [ ] a".toList].map itemTxt, 2⟩,
        ⟨"H".toList, ["- [ ] b".toList].map itemTxt, ["- [ ] a".toList].length + 3⟩] :=
  ⟨⟨by decide, by decide, by decide⟩,
    indented_items_split_groups.2 "# H".toList "H".toList (by decide) (by decide)
      ["- [ ] a".toList] (by decide) (by decide) ' ' "- [ ] s".toList (by decide)
      (by decide) (by decide) ["- [ ] b".toList] (by decide) (by decide)⟩

/-! ### The identity check (C1) -/

/-- All eight hash words are below `2^32`. -/
def Hash8.Bounded (H : Hash8) : Prop :=
  H.h0 < B32 ∧ H.h1 < B32 ∧ H.h2 < B32 ∧ H.h3 < B32 ∧
    H.h4 < B32 ∧ H.h5 < B32 ∧ H.h6 < B32 ∧ H.h7 < B32

instance (H : Hash8) : Decidable H.Bounded := by
  unfold Hash8.Bounded; infer_instance

theorem processChunk_bounded (H : Hash8) (c : List Nat) :
    (processChunk H c).Bounded := by
  refine ⟨?_, ?_, ?_, ?_, ?_, ?_, ?_, ?_⟩ <;> exact Nat.mod_lt _ (by decide)

theorem foldl_processChunk_bounded (l : List (List Nat)) :
    ∀ H : Hash8, H.Bounded → (l.foldl processChunk H).Bounded := by
  induction l with
  | nil => intro H hH; exact hH
  | cons c cs ih => intro H _; exact ih _ (processChunk_bounded H c)

theorem sha256_lt (msg : List Nat) : sha256 msg < 2 ^ 256 := by
  obtain ⟨b0, b1, b2, b3, b4, b5, b6, b7⟩ :=
    foldl_processChunk_bounded (chunk16 (toWords (padBytes msg))) initH (by decide)
  have h2 : (2 : Nat) ^ 256 =
      115792089237316195423570985008687907853269984665640564039457584007913129639936 := by
    norm_num
  rw [sha256, digestOf, h2]
  unfold B32 at *
  omega

/-- C1 counterexample: it is not the case that every pair of distinct texts
fails the identity check.  The check compares 256-bit SHA-256 digests, and by
the pigeonhole principle the digest map is not injective on the infinitely
many texts, so some pair of distinct texts passes. -/
theorem identity_check_not_equality :
    ¬ ∀ a b : List Char, a ≠ b → test_main_and_cskill_identical a b = false := by
  intro hall
  obtain ⟨x, y, hne, hfeq⟩ := Finite.exists_ne_map_eq_of_infinite
    (fun a : List Char => (⟨sha256 (utf8Encode a), sha256_lt _⟩ : Fin (2 ^ 256)))
  have heq : sha256 (utf8Encode x) = sha256 (utf8Encode y) := congrArg Fin.val hfeq
  have hfalse := hall x y hne
  rw [test_main_and_cskill_identical, heq] at hfalse
  simp at hfalse

/-- C1 amended: the identity check passes iff the SHA-256 digests of the two
encoded texts are equal; hence equal texts always pass, and the spec's
trailing-newline example (`"x"` vs `"x\n"`) fails, but text inequality does
not in general force failure (`identity_check_not_equality`).  The line-count
comparison passes exactly when the two texts have equally many newline
characters (i.e. equally many lines). -/
theorem identity_check_amended :
    (∀ a : List Char, test_main_and_cskill_identical a a = true) ∧
      (∀ a b : List Char, test_main_and_cskill_identical a b = true ↔
        sha256 (utf8Encode a) = sha256 (utf8Encode b)) ∧
      test_main_and_cskill_identical "x".toList "x\n".toList = false ∧
      (∀ a b : List Char, test_main_and_cskill_line_counts_match a b = true ↔
        a.count '\n' = b.count '\n') := by
  refine ⟨?_, ?_, by decide, ?_⟩
  · intro a
    simp [test_main_and_cskill_identical]
  · intro a b
    simp [test_main_and_cskill_identical]
  · intro a b
    simp only [test_main_and_cskill_line_counts_match, beq_iff_eq, splitOnNL_length]
    omega

/-! ### The section-set check (C6) -/

/-- The normalization as the specification words it: keep only lowercase
letters and the space character (no other whitespace, no final trim) — for
comparison against the implementation's `normalizeSection`. -/
def specNormalizeSection (l : Line) : Line :=
  (l.map pyLower).filter fun c => ('a' ≤ c ∧ c ≤ 'z') ∨ c = ' '

/-- The section sets the specification's wording would produce. -/
def specSections (content : List Char) : Finset Line :=
  ((splitOnNL content).filterMap
    fun l => (majorSectionText l).map specNormalizeSection).toFinset

/-- C6 counterexample: on `"## Overview"` vs `"## 1. Overview"` the
implemented check passes (both normalize to `"overview"` because the code
keeps whitespace during character-stripping and then trims), while the
claim's normalization — keep only lowercase letters and spaces, nothing
else — yields `"overview"` vs `" overview"`, unequal sets, so the claim
predicts failure. -/
theorem sections_normalization_counterexample :
    (sections_check "## Overview".toList "## 1. Overview".toList).1 = true ∧
      specSections "## Overview".toList ≠ specSections "## 1. Overview".toList := by
  refine ⟨by decide, fun heq => ?_⟩
  have h1 : (' ' :: "overview".toList) ∈ specSections "## 1. Overview".toList := by
    decide
  rw [← heq] at h1
  exact absurd h1 (by decide)

/-- C6 amended: the check passes iff the two documents' level-2 heading sets,
each normalized by lower-casing, deleting every character that is neither a
lowercase letter nor whitespace, and then trimming surrounding whitespace,
are equal; on failure the reported diagnostics are exactly the two set
differences, at least one of which is nonempty. -/
theorem sections_check_amended : ∀ a b : List Char,
    ((sections_check a b).1 = true ↔ _get_major_sections a = _get_major_sections b) ∧
      (sections_check a b).2.1 = _get_major_sections a \ _get_major_sections b ∧
      (sections_check a b).2.2 = _get_major_sections b \ _get_major_sections a ∧
      ((sections_check a b).1 = false →
        (sections_check a b).2.1 ∪ (sections_check a b).2.2 ≠ ∅) := by
  intro a b
  refine ⟨by simp [sections_check], rfl, rfl, ?_⟩
  intro hfail heq
  have h21 : (sections_check a b).2.1 =
      _get_major_sections a \ _get_major_sections b := rfl
  have h22 : (sections_check a b).2.2 =
      _get_major_sections b \ _get_major_sections a := rfl
  rw [h21, h22, Finset.union_eq_empty, Finset.sdiff_eq_empty_iff_subset,
    Finset.sdiff_eq_empty_iff_subset] at heq
  have hab : _get_major_sections a = _get_major_sections b :=
    Finset.Subset.antisymm heq.1 heq.2
  simp [sections_check, hab] at hfail

/-! ### The duplicate-detection check (C7) -/

theorem mem_firstDedupGo : ∀ (l seen : List Line) (x : Line),
    x ∈ firstDedupGo seen l ↔ x ∈ l ∧ x ∉ seen := by
  intro l
  induction l with
  | nil => simp [firstDedupGo]
  | cons y ys ih =>
    intro seen x
    by_cases hy : y ∈ seen
    · rw [firstDedupGo, if_pos hy, ih]
      constructor
      · rintro ⟨hx, hns⟩
        exact ⟨List.mem_cons_of_mem _ hx, hns⟩
      · rintro ⟨hx, hns⟩
        rcases List.mem_cons.mp hx with rfl | hx
        · exact absurd hy hns
        · exact ⟨hx, hns⟩
    · rw [firstDedupGo, if_neg hy, List.mem_cons, ih]
      constructor
      · rintro (rfl | ⟨hx, hns⟩)
        · exact ⟨List.mem_cons_self _ _, hy⟩
        · exact ⟨List.mem_cons_of_mem _ hx,
            fun hmem => hns (List.mem_cons_of_mem _ hmem)⟩
      · rintro ⟨hx, hns⟩
        rcases List.mem_cons.mp hx with rfl | hx
        · exact Or.inl rfl
        · by_cases hxy : x = y
          · exact Or.inl hxy
          · refine Or.inr ⟨hx, fun hmem => ?_⟩
            rcases List.mem_cons.mp hmem with h1 | h1
            · exact hxy h1
            · exact hns h1

theorem mem_firstDedup {x : Line} {l : List Line} : x ∈ firstDedup l ↔ x ∈ l := by
  rw [firstDedup, mem_firstDedupGo]
  simp

/-- `List.count` computed through the derived `BEq Line` agrees with the one
computed through `instBEqOfDecidableEq` (both are lawful). -/
theorem count_beq_eq (v : Line) (l : List Line) :
    List.count v l = @List.count Line instBEqOfDecidableEq v l := by
  induction l with
  | nil => rfl
  | cons x xs ih =>
    rw [List.count_cons, @List.count_cons Line instBEqOfDecidableEq v x xs, ih]
    by_cases hx : x = v <;> simp [hx]

theorem dupsOfGroup_eq_nil_iff (g : ChecklistGroup) :
    dupsOfGroup g = [] ↔ (g.items.map normItem).Nodup := by
  rw [dupsOfGroup, List.filterMap_eq_nil_iff, List.nodup_iff_count_le_one]
  constructor
  · intro h v
    rw [← count_beq_eq]
    by_cases hv : v ∈ g.items.map normItem
    · have hnone := h v (mem_firstDedup.mpr hv)
      by_cases hgt : 1 < List.count v (g.items.map normItem)
      · rw [if_pos hgt] at hnone
        exact absurd hnone (by simp)
      · omega
    · have hz : List.count v (g.items.map normItem) = 0 :=
        List.count_eq_zero.mpr hv
      omega
  · intro h v _
    have hle := h v
    rw [← count_beq_eq] at hle
    rw [if_neg]
    omega

/-- C7: (a) the duplicate check passes iff in every extracted group the
lower-cased, trimmed item texts are pairwise distinct (`Nodup` of the
normalized item list); (b) the document whose single group holds the three
case/whitespace variants of "Check input" is reported as exactly one
duplicate record of count 3, as is the raw group holding those three items. -/
theorem duplicate_detection :
    (∀ content : List Char, test_no_duplicate_checklist_items content = true ↔
        ∀ g ∈ extract_checklists content, (g.items.map normItem).Nodup) ∧
      duplicate_records
          "# S\n- [ ] Check input\n- [ ] check input\n- [ ] Check input \n".toList =
        [("S".toList, "check input".toList, 3)] ∧
      dupsOfGroup ⟨"S".toList,
          ["Check input".toList, "check input".toList, "Check input ".toList], 2⟩ =
        [("S".toList, "check input".toList, 3)] := by
  refine ⟨?_, by decide, by decide⟩
  intro content
  rw [test_no_duplicate_checklist_items, List.isEmpty_iff, duplicate_records,
    List.flatMap_eq_nil_iff]
  exact ⟨fun h g hg => (dupsOfGroup_eq_nil_iff g).mp (h g hg),
    fun h g hg => (dupsOfGroup_eq_nil_iff g).mpr (h g hg)⟩

/-! ### The link-syntax check (C8) -/

/-- C8 counterexample: the document `"[x](a b)"` holds a link whose URL
`"a b"` contains internal whitespace (a space that is neither leading nor
trailing), yet `test_link_format_valid` passes — the code only flags URLs
that differ from their stripped form, i.e. leading or trailing whitespace. -/
theorem link_internal_whitespace_counterexample :
    test_link_format_valid "[x](a b)".toList = true ∧
      findLinks "[x](a b)".toList = [("x".toList, "a b".toList)] ∧
      ' ' ∈ "a b".toList ∧
      "a b".toList.head? ≠ some ' ' ∧ "a b".toList.getLast? ≠ some ' ' := by
  decide

/-- C8 amended: the link check passes iff every `[text](url)` pair found in
the document has link text that does not strip to nothing and a URL equal to
its stripped form (no leading or trailing whitespace; internal whitespace is
not flagged).  Concretely, whitespace-only text, a leading-space URL and a
trailing-space URL each fail. -/
theorem link_check_amended :
    (∀ content : List Char, test_link_format_valid content = true ↔
        ∀ p ∈ findLinks content,
          ¬(pystrip p.1).isEmpty = true ∧ pystrip p.2 = p.2) ∧
      test_link_format_valid "[ ](u)".toList = false ∧
      test_link_format_valid "[x]( u)".toList = false ∧
      test_link_format_valid "[x](u )".toList = false := by
  refine ⟨?_, by decide, by decide, by decide⟩
  intro content
  rw [test_link_format_valid, List.isEmpty_iff, link_issues,
    List.flatMap_eq_nil_iff]
  constructor
  · intro h p hp
    obtain ⟨h1, h2⟩ := List.append_eq_nil.mp (h p hp)
    constructor
    · intro he
      rw [if_pos he] at h1
      exact absurd h1 (by simp)
    · by_cases hne : pystrip p.2 = p.2
      · exact hne
      · rw [if_pos hne] at h2
        exact absurd h2 (by simp)
  · intro h p hp
    obtain ⟨h1, h2⟩ := h p hp
    rw [if_neg h1, if_neg (fun hn => hn h2)]
    rfl
